import Mathlib

/-!
Verification of the HILA `field_storage` CPU backend
(`src/programs/plumbing/backend_cpu/field_storage_backend.h`).

Modelling conventions.  An element of type `T` is its byte image: a
`List Nat` of length `sizeT = sizeof(T)`; `sizeR = sizeof(real_t)` and
`fas = lattice->field_alloc_size()`.  Bit-identical values are equal lists.

The array-of-structures buffer (`#ifndef layout_SOA` branch) is a map from
logical index to the stored element's bytes.  The structure-of-arrays buffer
(`#else` branch) is a map from scalar-slot number to the `sizeR` bytes of the
`real_t` stored in that slot; every buffer access in that branch of the source
is a whole `real_t` load or store (`((real_t*)fieldbuf)[e*field_alloc_size+i]`),
so scalar-slot granularity is exact.  `malloc` is a map from a requested byte
count to `some address` or `none`; `exit(c)` is `Except.error c`.
-/

namespace HILA

/-- Byte range `[e*sizeR, (e+1)*sizeR)` of an element value: the scalar that
the cast `real_t *value_f = (real_t *)(&value)` exposes as `value_f[e]`. -/
def component (sizeR : Nat) (value : List Nat) (e : Nat) : List Nat :=
  (value.drop (e * sizeR)).take sizeR

/-- Overwrite bytes `[pos, pos + src.length)` of `dst` with `src`, keeping the
bytes on either side: the effect of `memcpy` of `src` into the middle of the
fixed-size object `dst` (all uses have `pos + src.length ≤ dst.length`). -/
def listWrite (dst : List Nat) (pos : Nat) (src : List Nat) : List Nat :=
  dst.take pos ++ src ++ dst.drop (pos + src.length)

/-- Array-of-structures `field_storage<T>::get` (source lines 10-15):
`T value = ((T*)fieldbuf)[i]; return value;` — a direct indexed load,
performed with no assertion or bounds check. -/
def aos_get (fieldbuf : Nat → List Nat) (i : Nat) : List Nat :=
  fieldbuf i

/-- Array-of-structures `field_storage<T>::set` (source lines 17-22):
`((T*)fieldbuf)[i] = value;` — a direct indexed store, no bounds check. -/
def aos_set (fieldbuf : Nat → List Nat) (value : List Nat) (i : Nat) :
    Nat → List Nat :=
  Function.update fieldbuf i value

/-- Loop of the structure-of-arrays `set` after `k` iterations: for each
`e < k`, store scalar `value_f[e]` into slot `e*field_alloc_size + i`. -/
def soa_setAux (sizeR fas : Nat) (value : List Nat) (i : Nat)
    (fieldbuf : Nat → List Nat) (k : Nat) : Nat → List Nat :=
  (List.range k).foldl
    (fun m e => Function.update m (e * fas + i) (component sizeR value e)) fieldbuf

/-- Structure-of-arrays `field_storage<T>::set` (source lines 59-67): the loop
runs for `e < sizeof(T)/sizeof(real_t)` (integer division), so only the first
`(sizeof(T)/sizeof(real_t)) * sizeof(real_t)` bytes of `value` are stored. -/
def soa_set (sizeT sizeR fas : Nat) (value : List Nat) (i : Nat)
    (fieldbuf : Nat → List Nat) : Nat → List Nat :=
  soa_setAux sizeR fas value i fieldbuf (sizeT / sizeR)

/-- Loop of the structure-of-arrays `get` after `k` iterations: `value` starts
as the uninitialized stack object (bytes `junk`), and iteration `e` overwrites
`value_f[e]` with the scalar held in slot `e*field_alloc_size + i`. -/
def soa_getAux (sizeR fas : Nat) (fieldbuf : Nat → List Nat) (i : Nat)
    (junk : List Nat) (k : Nat) : List Nat :=
  (List.range k).foldl
    (fun value e => listWrite value (e * sizeR) (fieldbuf (e * fas + i))) junk

/-- Structure-of-arrays `field_storage<T>::get` (source lines 48-57): `T value`
is declared uninitialized (bytes `junk`), the loop fills component `e` for
`e < sizeof(T)/sizeof(real_t)`, and the trailing `sizeof(T) mod sizeof(real_t)`
bytes of `value` are returned as they happened to lie on the stack. -/
def soa_get (sizeT sizeR fas : Nat) (fieldbuf : Nat → List Nat) (i : Nat)
    (junk : List Nat) : List Nat :=
  soa_getAux sizeR fas fieldbuf i junk (sizeT / sizeR)

/-- Assertion of the structure-of-arrays `get`/`set` (source lines 50 and 62):
`assert( i < field_alloc_size)` on the signed `int` index `i`; there is no
`0 <= i` conjunct. -/
def soa_assert (fas : Nat) (i : Int) : Bool :=
  i < (fas : Int)

/-- Scalar-slot offsets dereferenced by the structure-of-arrays `get`/`set`
(source lines 54 and 65): `e*field_alloc_size + i` in signed `int` arithmetic,
for `0 <= e < sizeof(T)/sizeof(real_t)`. -/
def soa_offsets (sizeT sizeR fas : Nat) (i : Int) : List Int :=
  (List.range (sizeT / sizeR)).map (fun (e : Nat) => (e : Int) * (fas : Int) + i)

/-- Array-of-structures `get` viewed at a signed index (source lines 10-15):
the body performs no assertion at all, so the access never fails; `none`
would model a tripped assertion and is never produced. -/
def aos_get_checked (fieldbuf : Int → List Nat) (i : Int) : Option (List Nat) :=
  some (fieldbuf i)

/-- `field_storage<T>::allocate_field`, array-of-structures branch (source
lines 24-32): `fieldbuf = malloc(sizeof(T) * lattice->field_alloc_size())`;
a null result prints a diagnostic and calls `exit(1)`. -/
def allocate_field_aos (sizeT fas : Nat) (malloc : Nat → Option Nat) :
    Except Nat Nat :=
  match malloc (sizeT * fas) with
  | none => Except.error 1
  | some p => Except.ok p

/-- `field_storage<T>::allocate_field`, structure-of-arrays branch (source
lines 69-78): `t_elements = sizeof(T)/sizeof(real_t)` and
`fieldbuf = malloc(t_elements * sizeof(real_t) * lattice->field_alloc_size())`;
a null result prints a diagnostic and calls `exit(1)`. -/
def allocate_field_soa (sizeT sizeR fas : Nat) (malloc : Nat → Option Nat) :
    Except Nat Nat :=
  match malloc (sizeT / sizeR * sizeR * fas) with
  | none => Except.error 1
  | some p => Except.ok p

/-- `field_storage<T>::free_field` (source lines 34-40):
`if (fieldbuf != nullptr) free(fieldbuf); fieldbuf = nullptr;`.  The pointer is
`some buf` when non-null and `none` when null; the returned `Bool` records
whether `free()` was invoked, i.e. whether anything was released. -/
def free_field {β : Type} (fieldbuf : Option β) : Option β × Bool :=
  match fieldbuf with
  | some _ => (none, true)
  | none => (none, false)

/-- Modelled from the spec: the declaration of `field_storage` (the file
`field_storage.h`, which is not under src/) determines the initial value of the
`fieldbuf` pointer.  Spec 4.2 states `free()` is safe on a never-allocated
storage, i.e. the pointer starts out null. -/
def fieldbuf_init (β : Type) : Option β :=
  none

/-- `field_storage<T>::gather_elements` (source lines 93-100): for each `j`,
read the element at `index_list[j]` with `get` and `memcpy` its `sizeof(T)`
bytes to offset `j*sizeof(T)` of the transfer buffer, so the buffer is the
concatenation of the elements' byte images in index-list order.  `get` is the
member `field_storage<T>::get` of whichever layout is compiled in. -/
def gather_elements (get : Nat → List Nat) : List Nat → List Nat
  | [] => []
  | idx :: rest => get idx ++ gather_elements get rest

/-- `field_storage<T>::place_elements` (source lines 103-109): for each `j`,
reinterpret bytes `[j*sizeof(T), (j+1)*sizeof(T))` of the transfer buffer as an
element and `set` it at `index_list[j]`.  `set` is the member
`field_storage<T>::set` of whichever layout is compiled in. -/
def place_elements {σ : Type} (set : List Nat → Nat → σ → σ) (sizeT : Nat) :
    List Nat → List Nat → σ → σ
  | _, [], s => s
  | buffer, idx :: rest, s =>
    place_elements set sizeT (buffer.drop sizeT) rest (set (buffer.take sizeT) idx s)

/-- `gather_elements` as compiled in the array-of-structures configuration. -/
def gather_elements_aos (fieldbuf : Nat → List Nat) (l : List Nat) : List Nat :=
  gather_elements (aos_get fieldbuf) l

/-- `place_elements` as compiled in the array-of-structures configuration. -/
def place_elements_aos (sizeT : Nat) (buffer l : List Nat)
    (fieldbuf : Nat → List Nat) : Nat → List Nat :=
  place_elements (fun value i m => aos_set m value i) sizeT buffer l fieldbuf

/-- `gather_elements` as compiled in the structure-of-arrays configuration;
`junk` is the uninitialized stack content picked up by each `get`. -/
def gather_elements_soa (sizeT sizeR fas : Nat) (fieldbuf : Nat → List Nat)
    (junk : List Nat) (l : List Nat) : List Nat :=
  gather_elements (fun i => soa_get sizeT sizeR fas fieldbuf i junk) l

/-- `place_elements` as compiled in the structure-of-arrays configuration. -/
def place_elements_soa (sizeT sizeR fas : Nat) (buffer l : List Nat)
    (fieldbuf : Nat → List Nat) : Nat → List Nat :=
  place_elements (fun value i m => soa_set sizeT sizeR fas value i m)
    sizeT buffer l fieldbuf

/-- `field_storage<T>::set_local_boundary_elements` (source lines 111-112):
the body is empty — whatever the direction, parity and storage state, nothing
is copied and nothing is transformed. -/
def set_local_boundary_elements (σ : Type) (dir par : Nat) (s : σ) : σ :=
  s

/-- Modelled from the spec: the lattice partition code (`lattice_struct`) is
not under src/.  Spec 4.1: a partitioning deterministically assigns each
global site `g < V` to exactly one partition and local index, invertibly
(`globalIndex` recovers the global coordinate from an owner/local pair). -/
structure Partitioning (V : Nat) where
  owner : Nat → Nat × Nat
  globalIndex : Nat × Nat → Nat
  global_owner : ∀ g, g < V → globalIndex (owner g) = g

/-- Modelled from the spec: a field whose per-site values are computed
deterministically from global coordinates — each partition holds
`f(global coordinate)` at the owning local slot. -/
def distributedField {α : Type} (V : Nat) (pt : Partitioning V) (f : Nat → α) :
    Nat × Nat → α :=
  fun pl => f (pt.globalIndex pl)

/-- Modelled from the spec: the logical value at a global coordinate is what
the owning partition stores at the mapped local index. -/
def logicalValue {α : Type} (V : Nat) (pt : Partitioning V)
    (store : Nat × Nat → α) (g : Nat) : α :=
  store (pt.owner g)

/-- Modelled from the spec (section 6): serialization is the flat sequence of
logical values in canonical global-coordinate order, independent of the
partition layout. -/
def serializeField {α : Type} (V : Nat) (pt : Partitioning V)
    (store : Nat × Nat → α) : List α :=
  (List.range V).map (logicalValue V pt store)

/-- Modelled from the spec: re-loading hands element `g` of the serialized
sequence to the slot that owns global coordinate `g` under the (possibly
different) new partitioning. -/
def loadField {α : Type} [Inhabited α] (V : Nat) (pt : Partitioning V)
    (data : List α) : Nat × Nat → α :=
  fun pl => data.getD (pt.globalIndex pl) default

/-- Trivial single-partition decomposition of a 4-site lattice. -/
def ptSingle : Partitioning 4 :=
  ⟨fun g => (0, g), fun pl => pl.2, by decide⟩

/-- Two-partition decomposition of a 4-site lattice, 2 sites per partition. -/
def ptSplit : Partitioning 4 :=
  ⟨fun g => (g / 2, g % 2), fun pl => pl.1 * 2 + pl.2, by decide⟩

/-- Flattening a list of byte lists of common length `s` yields
`(number of lists) * s` bytes. -/
theorem length_flatten_const {L : List (List Nat)} {s : Nat}
    (h : ∀ x ∈ L, x.length = s) : L.flatten.length = L.length * s := by
  induction L with
  | nil => simp
  | cons x t ih =>
    have hx : x.length = s := h x (by simp)
    have ht : ∀ y ∈ t, y.length = s := fun y hy => h y (by simp [hy])
    simp [List.length_append, ih ht, hx, Nat.succ_mul, Nat.add_comm]

/-- Slice `[j*s, (j+1)*s)` of the flattening of lists of common length `s` is
the `j`-th list. -/
theorem flatten_slice {L : List (List Nat)} {s : Nat}
    (h : ∀ x ∈ L, x.length = s) :
    ∀ j, j < L.length → ((L.flatten.drop (j * s)).take s) = L.getD j [] := by
  induction L with
  | nil => intro j hj; simp at hj
  | cons x t ih =>
    intro j hj
    have hx : x.length = s := h x (by simp)
    have ht : ∀ y ∈ t, y.length = s := fun y hy => h y (by simp [hy])
    cases j with
    | zero =>
      rw [List.getD_cons_zero, Nat.zero_mul, List.drop_zero]
      exact List.take_left' hx
    | succ j =>
      have hj' : j < t.length := by simpa using hj
      have hdrop : (x ++ t.flatten).drop ((j + 1) * s) = t.flatten.drop (j * s) := by
        have : (j + 1) * s = x.length + j * s := by rw [hx]; ring
        rw [this, List.drop_append]
      simp only [List.flatten_cons, hdrop]
      rw [ih ht j hj']
      rfl

/-- Reading a defaulted entry of a mapped range below the bound evaluates the
mapped function. -/
theorem getD_map_range {α : Type} {f : Nat → α} {n j : Nat} (hj : j < n) (d : α) :
    ((List.range n).map f).getD j d = f j := by
  simp [List.getD_eq_getElem?_getD, List.getElem?_range hj]

/-- Scalar slots of distinct components or distinct valid indices never
coincide: `e1*fas + i = e2*fas + j` with `i, j < fas` forces `e1 = e2` and
`i = j`. -/
theorem slot_inj {fas i j e1 e2 : Nat} (hi : i < fas) (hj : j < fas)
    (h : e1 * fas + i = e2 * fas + j) : e1 = e2 ∧ i = j := by
  have hij : i = j := by
    have h1 : (e1 * fas + i) % fas = i % fas := by
      rw [Nat.mul_comm e1 fas, Nat.mul_add_mod]
    have h2 : (e2 * fas + j) % fas = j % fas := by
      rw [Nat.mul_comm e2 fas, Nat.mul_add_mod]
    rw [h] at h1
    rw [h2, Nat.mod_eq_of_lt hi, Nat.mod_eq_of_lt hj] at h1
    exact h1.symm
  subst hij
  refine ⟨?_, rfl⟩
  have hfas : 0 < fas := Nat.pos_of_ne_zero (by omega)
  have : e1 * fas = e2 * fas := by omega
  exact Nat.eq_of_mul_eq_mul_right hfas this

/-- After the `set` loop has run `k` iterations, the slot of component `e < k`
holds component `e` of the stored value. -/
theorem soa_setAux_hit {sizeR fas i : Nat} {value : List Nat}
    {fieldbuf : Nat → List Nat} (hi : i < fas) :
    ∀ k e, e < k →
      soa_setAux sizeR fas value i fieldbuf k (e * fas + i) =
        component sizeR value e := by
  intro k
  induction k with
  | zero => intro e he; omega
  | succ k ih =>
    intro e he
    rw [soa_setAux, List.range_succ, List.foldl_append]
    simp only [List.foldl_cons, List.foldl_nil]
    rcases Nat.lt_or_ge e k with hek | hek
    · have hne : e * fas + i ≠ k * fas + i := by
        intro hc
        exact absurd (slot_inj hi hi hc).1 (Nat.ne_of_lt hek)
      rw [Function.update_noteq hne]
      exact ih e hek
    · have hek' : e = k := by omega
      subst hek'
      rw [Function.update_same]

/-- Slots not of the form `e*fas + i` for any `e < k` are untouched by the
`set` loop. -/
theorem soa_setAux_miss {sizeR fas i : Nat} {value : List Nat}
    {fieldbuf : Nat → List Nat} :
    ∀ k s, (∀ e, e < k → s ≠ e * fas + i) →
      soa_setAux sizeR fas value i fieldbuf k s = fieldbuf s := by
  intro k
  induction k with
  | zero => intro s _; rfl
  | succ k ih =>
    intro s hs
    rw [soa_setAux, List.range_succ, List.foldl_append]
    simp only [List.foldl_cons, List.foldl_nil]
    rw [Function.update_noteq (hs k (Nat.lt_succ_self k))]
    exact ih s (fun e he => hs e (Nat.lt_succ_of_lt he))

/-- A `set` loop all of whose stores write back the value the slot already
holds leaves the buffer unchanged. -/
theorem soa_setAux_self {sizeR fas i : Nat} {value : List Nat}
    {fieldbuf : Nat → List Nat} :
    ∀ k, (∀ e, e < k → component sizeR value e = fieldbuf (e * fas + i)) →
      soa_setAux sizeR fas value i fieldbuf k = fieldbuf := by
  intro k
  induction k with
  | zero => intro _; rfl
  | succ k ih =>
    intro h
    rw [soa_setAux, List.range_succ, List.foldl_append]
    simp only [List.foldl_cons, List.foldl_nil]
    have hk : soa_setAux sizeR fas value i fieldbuf k = fieldbuf :=
      ih (fun e he => h e (Nat.lt_succ_of_lt he))
    rw [soa_setAux] at hk
    rw [hk, h k (Nat.lt_succ_self k), Function.update_eq_self]

/-- The `set` loop preserves the invariant that every slot holds `sizeR`
bytes, as long as the stored value has at least `k*sizeR` bytes. -/
theorem soa_setAux_length {sizeR fas i : Nat} {value : List Nat}
    {fieldbuf : Nat → List Nat} (hbuf : ∀ s, (fieldbuf s).length = sizeR) :
    ∀ k, k * sizeR ≤ value.length →
      ∀ s, (soa_setAux sizeR fas value i fieldbuf k s).length = sizeR := by
  intro k
  induction k with
  | zero => intro _ s; exact hbuf s
  | succ k ih =>
    intro hk s
    have hms : (k + 1) * sizeR = k * sizeR + sizeR := by ring
    rw [soa_setAux, List.range_succ, List.foldl_append]
    simp only [List.foldl_cons, List.foldl_nil]
    rcases Decidable.em (s = k * fas + i) with hs | hs
    · subst hs
      rw [Function.update_same, component]
      simp only [List.length_take, List.length_drop]
      omega
    · rw [Function.update_noteq hs]
      exact ih (by omega) s

/-- Closed form of the `get` loop: after `k` iterations the value is the
concatenation of the `k` scalars read from the component slots, followed by
the untouched tail of the uninitialized bytes. -/
theorem soa_getAux_eq {sizeR fas i : Nat} {fieldbuf : Nat → List Nat}
    (hbuf : ∀ s, (fieldbuf s).length = sizeR) :
    ∀ k (junk : List Nat), k * sizeR ≤ junk.length →
      soa_getAux sizeR fas fieldbuf i junk k =
        ((List.range k).map (fun e => fieldbuf (e * fas + i))).flatten
          ++ junk.drop (k * sizeR) := by
  intro k
  induction k with
  | zero => intro junk _; simp [soa_getAux]
  | succ k ih =>
    intro junk hk
    have hk' : k * sizeR ≤ junk.length := by
      have : k * sizeR ≤ (k + 1) * sizeR := by
        have := Nat.mul_le_mul_right sizeR (Nat.le_succ k)
        simpa using this
      omega
    rw [soa_getAux, List.range_succ, List.foldl_append]
    simp only [List.foldl_cons, List.foldl_nil]
    have ihk := ih junk hk'
    rw [soa_getAux] at ihk
    rw [ihk]
    set J := ((List.range k).map (fun e => fieldbuf (e * fas + i))).flatten with hJ
    have hJlen : J.length = k * sizeR := by
      rw [hJ]
      have hmem : ∀ x ∈ (List.range k).map (fun e => fieldbuf (e * fas + i)),
          x.length = sizeR := by
        intro x hx
        rcases List.mem_map.mp hx with ⟨e, _, rfl⟩
        exact hbuf (e * fas + i)
      rw [length_flatten_const hmem]
      simp
    have hw : (fieldbuf (k * fas + i)).length = sizeR := hbuf (k * fas + i)
    rw [listWrite]
    rw [List.take_left' hJlen]
    have hdrop : (J ++ junk.drop (k * sizeR)).drop
        (k * sizeR + (fieldbuf (k * fas + i)).length) =
        junk.drop ((k + 1) * sizeR) := by
      rw [hw, ← hJlen, List.drop_append, List.drop_drop]
      congr 1
      rw [hJlen]
      ring
    rw [hdrop]
    simp only [List.range_succ, List.map_append, List.flatten_append,
      List.map_cons, List.map_nil, List.flatten_cons, List.flatten_nil,
      List.append_nil]

/-- Closed form of the structure-of-arrays `get`. -/
theorem soa_get_eq {sizeT sizeR fas i : Nat} {fieldbuf : Nat → List Nat}
    {junk : List Nat} (hbuf : ∀ s, (fieldbuf s).length = sizeR)
    (hjunk : sizeT / sizeR * sizeR ≤ junk.length) :
    soa_get sizeT sizeR fas fieldbuf i junk =
      ((List.range (sizeT / sizeR)).map (fun e => fieldbuf (e * fas + i))).flatten
        ++ junk.drop (sizeT / sizeR * sizeR) :=
  soa_getAux_eq hbuf (sizeT / sizeR) junk hjunk

/-- The structure-of-arrays `get` returns as many bytes as the uninitialized
stack object it fills, i.e. `sizeof(T)` bytes in the source. -/
theorem soa_get_length {sizeT sizeR fas i : Nat} {fieldbuf : Nat → List Nat}
    {junk : List Nat} (hbuf : ∀ s, (fieldbuf s).length = sizeR)
    (hjunk : sizeT / sizeR * sizeR ≤ junk.length) :
    (soa_get sizeT sizeR fas fieldbuf i junk).length = junk.length := by
  rw [soa_get_eq hbuf hjunk]
  have hmem : ∀ x ∈ (List.range (sizeT / sizeR)).map
      (fun e => fieldbuf (e * fas + i)), x.length = sizeR := by
    intro x hx
    rcases List.mem_map.mp hx with ⟨e, _, rfl⟩
    exact hbuf (e * fas + i)
  rw [List.length_append, length_flatten_const hmem]
  simp only [List.length_map, List.length_range, List.length_drop]
  omega

/-- Component `e < sizeof(T)/sizeof(real_t)` of the value returned by the
structure-of-arrays `get` is exactly the scalar held in slot `e*fas + i`. -/
theorem component_soa_get {sizeT sizeR fas i e : Nat}
    {fieldbuf : Nat → List Nat} {junk : List Nat}
    (hbuf : ∀ s, (fieldbuf s).length = sizeR)
    (hjunk : sizeT / sizeR * sizeR ≤ junk.length)
    (he : e < sizeT / sizeR) :
    component sizeR (soa_get sizeT sizeR fas fieldbuf i junk) e =
      fieldbuf (e * fas + i) := by
  rw [component, soa_get_eq hbuf hjunk]
  set M := (List.range (sizeT / sizeR)).map (fun e => fieldbuf (e * fas + i))
    with hM
  have hmem : ∀ x ∈ M, x.length = sizeR := by
    intro x hx
    rcases List.mem_map.mp hx with ⟨e', _, rfl⟩
    exact hbuf (e' * fas + i)
  have hMflat : M.flatten.length = sizeT / sizeR * sizeR := by
    rw [length_flatten_const hmem, hM]
    simp
  have hdrop : (M.flatten ++ junk.drop (sizeT / sizeR * sizeR)).drop (e * sizeR)
      = M.flatten.drop (e * sizeR) ++ junk.drop (sizeT / sizeR * sizeR) := by
    apply List.drop_append_of_le_length
    rw [hMflat]
    exact Nat.mul_le_mul_right sizeR (Nat.le_of_lt he)
  rw [hdrop]
  have htake : (M.flatten.drop (e * sizeR) ++ junk.drop (sizeT / sizeR * sizeR)).take sizeR
      = (M.flatten.drop (e * sizeR)).take sizeR := by
    apply List.take_append_of_le_length
    simp only [List.length_drop, hMflat]
    have h1 : (e + 1) * sizeR ≤ sizeT / sizeR * sizeR :=
      Nat.mul_le_mul_right sizeR (Nat.succ_le_of_lt he)
    have h2 : (e + 1) * sizeR = e * sizeR + sizeR := by ring
    omega
  rw [htake, flatten_slice hmem e (by rw [hM]; simpa using he), hM,
    getD_map_range he]

/-- Concatenating the first `k` components of a value recovers its first
`k*sizeR` bytes. -/
theorem flatten_components {sizeR : Nat} {value : List Nat} :
    ∀ k, ((List.range k).map (component sizeR value)).flatten =
      value.take (k * sizeR) := by
  intro k
  induction k with
  | zero => simp
  | succ k ih =>
    rw [List.range_succ, List.map_append, List.flatten_append, ih]
    have : (k + 1) * sizeR = k * sizeR + sizeR := by ring
    rw [this, List.take_add]
    simp [component]

/-- The gather loop concatenates the byte images of the requested elements in
index-list order. -/
theorem gather_elements_eq_flatten (get : Nat → List Nat) (l : List Nat) :
    gather_elements get l = (l.map get).flatten := by
  induction l with
  | nil => rfl
  | cons idx rest ih => simp [gather_elements, ih]

/-- The gather loop emits exactly `len(index_list) * sizeof(T)` bytes. -/
theorem gather_elements_length {get : Nat → List Nat} {l : List Nat}
    {sizeT : Nat} (hlen : ∀ idx ∈ l, (get idx).length = sizeT) :
    (gather_elements get l).length = l.length * sizeT := by
  rw [gather_elements_eq_flatten]
  have h : ∀ x ∈ l.map get, x.length = sizeT := by
    intro x hx
    rcases List.mem_map.mp hx with ⟨idx, hidx, rfl⟩
    exact hlen idx hidx
  rw [length_flatten_const h, List.length_map]

/-- Byte range `[j*sizeof(T), (j+1)*sizeof(T))` of the gather output is the
byte image of the element read at `index_list[j]`. -/
theorem gather_elements_slice {get : Nat → List Nat} {l : List Nat}
    {sizeT : Nat} (hlen : ∀ idx ∈ l, (get idx).length = sizeT)
    {j : Nat} (hj : j < l.length) :
    ((gather_elements get l).drop (j * sizeT)).take sizeT = get (l.getD j 0) := by
  rw [gather_elements_eq_flatten]
  have h : ∀ x ∈ l.map get, x.length = sizeT := by
    intro x hx
    rcases List.mem_map.mp hx with ⟨idx, hidx, rfl⟩
    exact hlen idx hidx
  rw [flatten_slice h j (by simpa using hj)]
  rw [List.getD_eq_getElem ((l.map get)) [] (by simpa using hj)]
  rw [List.getElem_map]
  rw [List.getD_eq_getElem l 0 hj]

/-- Scatter after gather with the same index list restores the storage state
exactly, provided every element read has `sizeof(T)` bytes and storing back
the value just read is a no-op (both layouts satisfy these below). -/
theorem place_gather_eq {σ : Type} (set : List Nat → Nat → σ → σ)
    (get : Nat → List Nat) (sizeT : Nat) (s : σ) :
    ∀ l : List Nat, (∀ idx ∈ l, (get idx).length = sizeT) →
      (∀ idx ∈ l, set (get idx) idx s = s) →
      place_elements set sizeT (gather_elements get l) l s = s := by
  intro l
  induction l with
  | nil => intro _ _; rfl
  | cons idx rest ih =>
    intro hlen hset
    have hhead : (get idx).length = sizeT := hlen idx (by simp)
    rw [gather_elements, place_elements]
    rw [List.take_left' hhead, List.drop_left' hhead]
    rw [hset idx (by simp)]
    exact ih (fun x hx => hlen x (by simp [hx])) (fun x hx => hset x (by simp [hx]))

/-- The scatter loop reads nothing beyond the first
`len(index_list) * sizeof(T)` bytes of the transfer buffer. -/
theorem place_elements_take {σ : Type} (set : List Nat → Nat → σ → σ)
    (sizeT : Nat) :
    ∀ (l buffer : List Nat) (s : σ),
      place_elements set sizeT (buffer.take (l.length * sizeT)) l s =
        place_elements set sizeT buffer l s := by
  intro l
  induction l with
  | nil => intro buffer s; rfl
  | cons idx rest ih =>
    intro buffer s
    rw [place_elements, place_elements]
    have h1 : (buffer.take ((idx :: rest).length * sizeT)).take sizeT =
        buffer.take sizeT := by
      rw [List.take_take]
      congr 1
      simp only [List.length_cons]
      have : sizeT ≤ (rest.length + 1) * sizeT := by
        have := Nat.mul_le_mul_right sizeT (Nat.succ_le_succ (Nat.zero_le rest.length))
        simpa using this
      omega
    have h2 : (buffer.take ((idx :: rest).length * sizeT)).drop sizeT =
        (buffer.drop sizeT).take (rest.length * sizeT) := by
      rw [List.drop_take]
      congr 1
      simp only [List.length_cons]
      ring_nf
      omega
    rw [h1, h2, ih]

/-- One step of the array-of-structures scatter: store the leading
`sizeof(T)` bytes at the head index, recurse on the rest of the buffer. -/
theorem place_elements_aos_cons {sizeT : Nat} {buffer : List Nat}
    {idx : Nat} {rest : List Nat} {fieldbuf : Nat → List Nat} :
    place_elements_aos sizeT buffer (idx :: rest) fieldbuf =
      place_elements_aos sizeT (buffer.drop sizeT) rest
        (aos_set fieldbuf (buffer.take sizeT) idx) :=
  rfl

/-- One step of the structure-of-arrays scatter. -/
theorem place_elements_soa_cons {sizeT sizeR fas : Nat} {buffer : List Nat}
    {idx : Nat} {rest : List Nat} {fieldbuf : Nat → List Nat} :
    place_elements_soa sizeT sizeR fas buffer (idx :: rest) fieldbuf =
      place_elements_soa sizeT sizeR fas (buffer.drop sizeT) rest
        (soa_set sizeT sizeR fas (buffer.take sizeT) idx fieldbuf) :=
  rfl

/-- Indices outside the list are untouched by the array-of-structures
scatter. -/
theorem place_aos_untouched {sizeT : Nat} {x : Nat} :
    ∀ (l buffer : List Nat) (fieldbuf : Nat → List Nat), x ∉ l →
      place_elements_aos sizeT buffer l fieldbuf x = fieldbuf x := by
  intro l
  induction l with
  | nil => intro buffer fieldbuf _; rfl
  | cons idx rest ih =>
    intro buffer fieldbuf hx
    rw [place_elements_aos_cons]
    rw [ih (buffer.drop sizeT) _ (fun hc => hx (by simp [hc]))]
    exact Function.update_noteq (fun hc => hx (by simp [hc])) _ _

/-- With distinct indices, the array-of-structures scatter stores the `j`-th
packed element at `index_list[j]`. -/
theorem place_aos_getD {sizeT : Nat} :
    ∀ (l buffer : List Nat) (fieldbuf : Nat → List Nat), l.Nodup →
      ∀ j, j < l.length →
        place_elements_aos sizeT buffer l fieldbuf (l.getD j 0) =
          (buffer.drop (j * sizeT)).take sizeT := by
  intro l
  induction l with
  | nil => intro buffer fieldbuf _ j hj; simp at hj
  | cons idx rest ih =>
    intro buffer fieldbuf hnd j hj
    rcases List.nodup_cons.mp hnd with ⟨hidx, hrest⟩
    cases j with
    | zero =>
      rw [List.getD_cons_zero, place_elements_aos_cons]
      rw [place_aos_untouched rest (buffer.drop sizeT) _ hidx]
      rw [aos_set, Function.update_same]
      simp
    | succ j =>
      have hj' : j < rest.length := by simpa using hj
      rw [List.getD_cons_succ, place_elements_aos_cons]
      rw [ih (buffer.drop sizeT) _ hrest j hj']
      rw [List.drop_drop]
      congr 2
      ring

/-- Slots belonging to an index outside the list are untouched by the
structure-of-arrays scatter. -/
theorem place_soa_untouched {sizeT sizeR fas x e : Nat} (hx : x < fas)
    (he : e < sizeT / sizeR) :
    ∀ (l buffer : List Nat) (fieldbuf : Nat → List Nat),
      (∀ y ∈ l, y < fas) → x ∉ l →
      place_elements_soa sizeT sizeR fas buffer l fieldbuf (e * fas + x) =
        fieldbuf (e * fas + x) := by
  intro l
  induction l with
  | nil => intro buffer fieldbuf _ _; rfl
  | cons idx rest ih =>
    intro buffer fieldbuf hall hx'
    rw [place_elements_soa_cons]
    rw [ih (buffer.drop sizeT) _ (fun y hy => hall y (by simp [hy]))
      (fun hc => hx' (by simp [hc]))]
    rw [soa_set]
    apply soa_setAux_miss
    intro e' he' hc
    have := slot_inj hx (hall idx (by simp)) hc
    exact hx' (by simp [this.2])

/-- With distinct valid indices, the structure-of-arrays scatter stores the
components of the `j`-th packed element in the slots of `index_list[j]`. -/
theorem place_soa_getD {sizeT sizeR fas : Nat} :
    ∀ (l buffer : List Nat) (fieldbuf : Nat → List Nat), l.Nodup →
      (∀ y ∈ l, y < fas) →
      ∀ j, j < l.length → ∀ e, e < sizeT / sizeR →
        place_elements_soa sizeT sizeR fas buffer l fieldbuf
            (e * fas + l.getD j 0) =
          component sizeR ((buffer.drop (j * sizeT)).take sizeT) e := by
  intro l
  induction l with
  | nil => intro buffer fieldbuf _ _ j hj; simp at hj
  | cons idx rest ih =>
    intro buffer fieldbuf hnd hall j hj e he
    rcases List.nodup_cons.mp hnd with ⟨hidx, hrest⟩
    cases j with
    | zero =>
      rw [List.getD_cons_zero, place_elements_soa_cons]
      rw [place_soa_untouched (hall idx (by simp)) he rest (buffer.drop sizeT)
        _ (fun y hy => hall y (by simp [hy])) hidx]
      rw [soa_set, soa_setAux_hit (hall idx (by simp)) _ e he]
      simp
    | succ j =>
      have hj' : j < rest.length := by simpa using hj
      rw [List.getD_cons_succ, place_elements_soa_cons]
      rw [ih (buffer.drop sizeT) _ hrest (fun y hy => hall y (by simp [hy]))
        j hj' e he]
      rw [List.drop_drop]
      congr 3
      ring

/-- Claim C1, counterexample.  The claim asserts that `set(v, i, fas)` followed
by `get(i, fas)` returns exactly `v` in either layout, including when
`sizeof(T)` is not a multiple of `sizeof(real_t)`.  With `sizeof(T) = 6` and
`sizeof(real_t) = 4` the structure-of-arrays loop bound `sizeof(T)/sizeof(real_t) = 1`
stores and reloads only the first 4 bytes, so the two trailing bytes of the
returned value are uninitialized stack content (here `9, 9`), not the stored
bytes `5, 6`; the array-of-structures layout does return `v` exactly.  So the
layouts are not bit-identical there and the round trip fails. -/
theorem C1_counterexample :
    aos_get (aos_set (fun _ => [0, 0, 0, 0, 0, 0]) [1, 2, 3, 4, 5, 6] 0) 0 =
      [1, 2, 3, 4, 5, 6]
    ∧ soa_get 6 4 1 (soa_set 6 4 1 [1, 2, 3, 4, 5, 6] 0 (fun _ => [0, 0, 0, 0]))
        0 [7, 7, 7, 7, 9, 9] ≠ [1, 2, 3, 4, 5, 6] := by
  decide

/-- Claim C1 (amended): when `sizeof(T)` is a multiple of `sizeof(real_t)` —
as for every field element type built from `real_t` scalars — `set(v, i, fas)`
followed by `get(i, fas)` returns exactly `v`, bit-identically, in both the
array-of-structures and the structure-of-arrays layout, for every valid index
`i < fas`. -/
theorem C1_layout_roundtrip_amended (sizeT sizeR fas i : Nat)
    (value junk : List Nat) (aosbuf soabuf : Nat → List Nat)
    (hdvd : sizeR ∣ sizeT) (hi : i < fas) (hval : value.length = sizeT)
    (hjunk : junk.length = sizeT) (hsoa : ∀ s, (soabuf s).length = sizeR) :
    aos_get (aos_set aosbuf value i) i = value
    ∧ soa_get sizeT sizeR fas (soa_set sizeT sizeR fas value i soabuf) i junk =
        value := by
  constructor
  · rw [aos_get, aos_set, Function.update_same]
  · have hk : sizeT / sizeR * sizeR = sizeT := Nat.div_mul_cancel hdvd
    have hset_len : ∀ s,
        (soa_set sizeT sizeR fas value i soabuf s).length = sizeR :=
      fun s => soa_setAux_length hsoa (sizeT / sizeR) (by omega) s
    have hjle : sizeT / sizeR * sizeR ≤ junk.length := by rw [hk]; omega
    rw [soa_get_eq hset_len hjle]
    have hmap : (List.range (sizeT / sizeR)).map
        (fun e => soa_set sizeT sizeR fas value i soabuf (e * fas + i)) =
        (List.range (sizeT / sizeR)).map (component sizeR value) :=
      List.map_congr_left
        (fun e he => soa_setAux_hit hi (sizeT / sizeR) e (List.mem_range.mp he))
    rw [hmap, flatten_components (sizeT / sizeR), hk, ← hval, List.take_length,
      hval, ← hjunk, List.drop_length, List.append_nil]

/-- Concrete instance of the amended C1: an 8-byte element over 4-byte
scalars round-trips bit-identically through the structure-of-arrays layout. -/
theorem C1_witness :
    soa_get 8 4 2 (soa_set 8 4 2 [1, 2, 3, 4, 5, 6, 7, 8] 1
      (fun _ => [0, 0, 0, 0])) 1 [9, 9, 9, 9, 9, 9, 9, 9] =
      [1, 2, 3, 4, 5, 6, 7, 8] :=
  (C1_layout_roundtrip_amended 8 4 2 1 [1, 2, 3, 4, 5, 6, 7, 8]
    [9, 9, 9, 9, 9, 9, 9, 9] (fun _ => []) (fun _ => [0, 0, 0, 0])
    (by decide) (by decide) rfl rfl (fun _ => rfl)).2

/-- Claim C9: in both layouts, `set(v, i, fas)` with `i < fas` changes only
the logical element at `i`: every other valid index `j` reads back the same
value as before, because in the structure-of-arrays layout the strided slots
`e*fas + i` and `e2*fas + j` never collide for `i ≠ j` below `fas`. -/
theorem C9_set_frame (sizeT sizeR fas i j : Nat) (value junk : List Nat)
    (aosbuf soabuf : Nat → List Nat) (hi : i < fas) (hj : j < fas)
    (hij : j ≠ i) (hval : sizeT ≤ value.length)
    (hjunk : sizeT / sizeR * sizeR ≤ junk.length)
    (hsoa : ∀ s, (soabuf s).length = sizeR) :
    aos_get (aos_set aosbuf value i) j = aos_get aosbuf j
    ∧ soa_get sizeT sizeR fas (soa_set sizeT sizeR fas value i soabuf) j junk =
        soa_get sizeT sizeR fas soabuf j junk := by
  constructor
  · rw [aos_get, aos_set, Function.update_noteq hij, aos_get]
  · have hset_len : ∀ s,
        (soa_set sizeT sizeR fas value i soabuf s).length = sizeR :=
      fun s => soa_setAux_length hsoa (sizeT / sizeR)
        (le_trans (Nat.div_mul_le_self sizeT sizeR) hval) s
    rw [soa_get_eq hset_len hjunk, soa_get_eq hsoa hjunk]
    have hmap : (List.range (sizeT / sizeR)).map
        (fun e => soa_set sizeT sizeR fas value i soabuf (e * fas + j)) =
        (List.range (sizeT / sizeR)).map (fun e => soabuf (e * fas + j)) := by
      apply List.map_congr_left
      intro e _
      apply soa_setAux_miss
      intro e2 _ hc
      exact hij (slot_inj hj hi hc).2
    rw [hmap]

/-- Concrete instance of C9: storing at index 0 leaves the value read at
index 1 unchanged in the structure-of-arrays layout. -/
theorem C9_witness :
    soa_get 4 4 2 (soa_set 4 4 2 [1, 2, 3, 4] 0 (fun _ => [9, 9, 9, 9])) 1
      [0, 0, 0, 0] = soa_get 4 4 2 (fun _ => [9, 9, 9, 9]) 1 [0, 0, 0, 0] :=
  (C9_set_frame 4 4 2 0 1 [1, 2, 3, 4] [0, 0, 0, 0] (fun _ => [])
    (fun _ => [9, 9, 9, 9]) (by decide) (by decide) (by decide) (by decide)
    (by decide) (fun _ => rfl)).2

/-- Claim C3: gathering an index list into a buffer and placing that same
buffer back with the same index list leaves the logical value at every index
of the storage unchanged, in both layouts. -/
theorem C3_gather_place_roundtrip (sizeT sizeR fas : Nat) (l : List Nat)
    (aosbuf soabuf : Nat → List Nat) (junk : List Nat)
    (hidx : ∀ idx ∈ l, idx < fas)
    (haos : ∀ x, (aosbuf x).length = sizeT)
    (hsoa : ∀ s, (soabuf s).length = sizeR)
    (hjunk : junk.length = sizeT) :
    (∀ x, aos_get (place_elements_aos sizeT (gather_elements_aos aosbuf l) l
        aosbuf) x = aos_get aosbuf x)
    ∧ (∀ x junk2, soa_get sizeT sizeR fas
        (place_elements_soa sizeT sizeR fas
          (gather_elements_soa sizeT sizeR fas soabuf junk l) l soabuf) x junk2
        = soa_get sizeT sizeR fas soabuf x junk2) := by
  have hkj : sizeT / sizeR * sizeR ≤ junk.length :=
    le_trans (Nat.div_mul_le_self sizeT sizeR) (le_of_eq hjunk.symm)
  constructor
  · have h1 : place_elements_aos sizeT (gather_elements_aos aosbuf l) l aosbuf
        = aosbuf := by
      apply place_gather_eq _ _ sizeT aosbuf l (fun idx _ => haos idx)
      intro idx _
      show aos_set aosbuf (aos_get aosbuf idx) idx = aosbuf
      rw [aos_get, aos_set]
      exact Function.update_eq_self idx aosbuf
    intro x
    rw [h1]
  · have h2 : place_elements_soa sizeT sizeR fas
        (gather_elements_soa sizeT sizeR fas soabuf junk l) l soabuf
        = soabuf := by
      apply place_gather_eq _ _ sizeT soabuf l
      · intro idx _
        rw [soa_get_length hsoa hkj, hjunk]
      · intro idx _
        show soa_set sizeT sizeR fas
          (soa_get sizeT sizeR fas soabuf idx junk) idx soabuf = soabuf
        apply soa_setAux_self
        intro e he
        exact component_soa_get hsoa hkj he
    intro x junk2
    rw [h2]

/-- Concrete instance of C3: a gather/place round trip on indices `[1, 0]`
leaves the structure-of-arrays storage reading unchanged. -/
theorem C3_witness :
    soa_get 4 4 2 (place_elements_soa 4 4 2
      (gather_elements_soa 4 4 2 (fun _ => [5, 6, 7, 8]) [0, 0, 0, 0] [1, 0])
      [1, 0] (fun _ => [5, 6, 7, 8])) 0 [3, 3, 3, 3] =
      soa_get 4 4 2 (fun _ => [5, 6, 7, 8]) 0 [3, 3, 3, 3] :=
  (C3_gather_place_roundtrip 4 4 2 [1, 0] (fun _ => [1, 2, 3, 4])
    (fun _ => [5, 6, 7, 8]) [0, 0, 0, 0] (by decide) (fun _ => rfl)
    (fun _ => rfl) rfl).2 0 [3, 3, 3, 3]

/-- Claim C4: for an index list of length `L`, `gather_elements` emits exactly
`L * sizeof(T)` bytes and preserves index order — byte range
`[j*sizeof(T), (j+1)*sizeof(T))` holds the element read at `index_list[j]` —
and `place_elements` reads exactly the first `L * sizeof(T)` bytes, storing
the `j`-th packed element at `index_list[j]` (for distinct indices; in the
structure-of-arrays layout, component-wise into the strided slots). -/
theorem C4_gather_place_contract (sizeT sizeR fas : Nat) (l : List Nat)
    (aosbuf soabuf : Nat → List Nat) (junk buffer : List Nat)
    (haos : ∀ x, (aosbuf x).length = sizeT)
    (hsoa : ∀ s, (soabuf s).length = sizeR)
    (hjunk : junk.length = sizeT) :
    (gather_elements_aos aosbuf l).length = l.length * sizeT
    ∧ (gather_elements_soa sizeT sizeR fas soabuf junk l).length =
        l.length * sizeT
    ∧ (∀ j, j < l.length →
        ((gather_elements_aos aosbuf l).drop (j * sizeT)).take sizeT =
          aos_get aosbuf (l.getD j 0))
    ∧ (∀ j, j < l.length →
        ((gather_elements_soa sizeT sizeR fas soabuf junk l).drop
          (j * sizeT)).take sizeT =
          soa_get sizeT sizeR fas soabuf (l.getD j 0) junk)
    ∧ place_elements_aos sizeT (buffer.take (l.length * sizeT)) l aosbuf =
        place_elements_aos sizeT buffer l aosbuf
    ∧ place_elements_soa sizeT sizeR fas (buffer.take (l.length * sizeT)) l
        soabuf = place_elements_soa sizeT sizeR fas buffer l soabuf
    ∧ (l.Nodup → ∀ j, j < l.length →
        place_elements_aos sizeT buffer l aosbuf (l.getD j 0) =
          (buffer.drop (j * sizeT)).take sizeT)
    ∧ (l.Nodup → (∀ y ∈ l, y < fas) → ∀ j, j < l.length →
        ∀ e, e < sizeT / sizeR →
        place_elements_soa sizeT sizeR fas buffer l soabuf
            (e * fas + l.getD j 0) =
          component sizeR ((buffer.drop (j * sizeT)).take sizeT) e) := by
  have hkj : sizeT / sizeR * sizeR ≤ junk.length :=
    le_trans (Nat.div_mul_le_self sizeT sizeR) (le_of_eq hjunk.symm)
  have hlen_aos : ∀ idx ∈ l, (aos_get aosbuf idx).length = sizeT :=
    fun idx _ => haos idx
  have hlen_soa : ∀ idx ∈ l,
      (soa_get sizeT sizeR fas soabuf idx junk).length = sizeT :=
    fun idx _ => by rw [soa_get_length hsoa hkj, hjunk]
  refine ⟨gather_elements_length hlen_aos, gather_elements_length hlen_soa,
    fun j hj => gather_elements_slice hlen_aos hj,
    fun j hj => gather_elements_slice hlen_soa hj,
    place_elements_take _ sizeT l buffer aosbuf,
    place_elements_take _ sizeT l buffer soabuf,
    fun hnd j hj => place_aos_getD l buffer aosbuf hnd j hj,
    fun hnd hall j hj e he => place_soa_getD l buffer soabuf hnd hall j hj e he⟩

/-- Concrete instance of C4: gathering two 4-byte elements emits 8 bytes, and
a scattered element lands component-wise in the slots of its index. -/
theorem C4_witness :
    (gather_elements_aos (fun _ => [1, 2, 3, 4]) [1, 0]).length = 2 * 4
    ∧ place_elements_soa 4 4 2 [5, 6, 7, 8, 9, 10, 11, 12] [1, 0]
        (fun _ => [0, 0, 0, 0]) (0 * 2 + [1, 0].getD 0 0) =
        component 4 (([5, 6, 7, 8, 9, 10, 11, 12].drop (0 * 4)).take 4) 0 := by
  have h := C4_gather_place_contract 4 4 2 [1, 0] (fun _ => [1, 2, 3, 4])
    (fun _ => [0, 0, 0, 0]) [0, 0, 0, 0] [5, 6, 7, 8, 9, 10, 11, 12]
    (fun _ => rfl) (fun _ => rfl) rfl
  exact ⟨h.1, h.2.2.2.2.2.2.2 (by decide) (by decide) 0 (by decide) 0 (by decide)⟩

/-- Claim C5, counterexample.  The claim requires the degenerate-case halo
exchange to apply the antiperiodic sign flip to the copied ghost values.  Take
an antiperiodic field whose storage holds the value `5` everywhere (state of
type `Nat → Int`), a ghost slot `7` mirroring a wrapped-around source slot:
after `set_local_boundary_elements` the ghost slot still holds `5`, not the
sign-flipped `-5` the claim demands — the CPU backend's body is empty, so
neither a copy nor any transformation happens. -/
theorem C5_counterexample :
    set_local_boundary_elements (Nat → Int) 0 0 (fun _ => 5) 7 = 5
    ∧ ¬ set_local_boundary_elements (Nat → Int) 0 0 (fun _ => 5) 7 = -5 :=
  ⟨rfl, by decide⟩

/-- Claim C5 (amended): in the CPU backend, when a partition's neighbor is
itself, `set_local_boundary_elements` performs no operation at all: for every
direction, parity and storage state it returns the storage unchanged — no
local copy is made and no boundary-condition (antiperiodic sign)
transformation is applied. -/
theorem C5_noop_amended (σ : Type) (dir par : Nat) (s : σ) :
    set_local_boundary_elements σ dir par s = s :=
  rfl

/-- Claim C6, counterexample.  The claim says a gather/scatter call whose byte
buffer's size differs from `len(index_list) * sizeof(T)` is detected at the
call boundary and aborted.  The source functions receive only a raw pointer
and perform no size check whatsoever: a gather for one 4-byte element into a
0-byte destination completes normally and emits its full 4 bytes, and a place
of one 4-byte element from an empty buffer completes normally and silently
stores a truncated (0-byte) element at index 0. -/
theorem C6_counterexample :
    gather_elements_aos (fun _ => [1, 2, 3, 4]) [0] = [1, 2, 3, 4]
    ∧ (gather_elements_aos (fun _ => [1, 2, 3, 4]) [0]).length ≠ 0
    ∧ place_elements_aos 4 [] [0] (fun _ => [1, 2, 3, 4]) 0 = [] := by
  decide

/-- Claim C6 (amended): no size check exists at the gather/scatter call
boundary; the contract is the caller's unchecked responsibility.  Whatever
buffer the caller supplies, `gather_elements` always writes exactly
`len(index_list) * sizeof(T)` bytes and `place_elements` always reads exactly
the first `len(index_list) * sizeof(T)` bytes of its buffer. -/
theorem C6_no_size_check_amended (sizeT : Nat) (get : Nat → List Nat)
    (l : List Nat) (hlen : ∀ idx ∈ l, (get idx).length = sizeT) :
    (gather_elements get l).length = l.length * sizeT
    ∧ ∀ (σ : Type) (set : List Nat → Nat → σ → σ) (buffer : List Nat) (s : σ),
        place_elements set sizeT (buffer.take (l.length * sizeT)) l s =
          place_elements set sizeT buffer l s :=
  ⟨gather_elements_length hlen,
   fun _ set buffer s => place_elements_take set sizeT l buffer s⟩

/-- Concrete instance of the amended C6: gathering two 4-byte elements writes
exactly 8 bytes. -/
theorem C6_witness :
    (gather_elements (fun _ => [1, 2, 3, 4]) [0, 5]).length = 2 * 4 :=
  (C6_no_size_check_amended 4 (fun _ => [1, 2, 3, 4]) [0, 5]
    (fun _ _ => rfl)).1

/-- Claim C7: `free_field` on a never-allocated or already-freed storage is a
safe no-op that releases nothing; after any `free_field` the pointer is null,
and a second `free_field` neither releases anything nor changes the state, so
`free_field` is idempotent. -/
theorem C7_free_noop (β : Type) (s : Option β) :
    free_field (fieldbuf_init β) = (fieldbuf_init β, false)
    ∧ (free_field s).1 = none
    ∧ (free_field (free_field s).1).1 = (free_field s).1
    ∧ (free_field (free_field s).1).2 = false := by
  refine ⟨rfl, ?_, ?_, ?_⟩ <;> cases s <;> rfl

/-- Claim C8: `allocate_field` requests a buffer sized for `field_alloc_size`
logical elements in the compiled layout (`sizeof(T) * fas` bytes for
array-of-structures, `(sizeof(T)/sizeof(real_t)) * sizeof(real_t) * fas` bytes
for structure-of-arrays); a failed allocation terminates the process with exit
code 1 — a non-zero exit, never a recoverable error — and a normal return
carries the non-null buffer address produced by that exact request. -/
theorem C8_allocate_fatal (sizeT sizeR fas : Nat) (malloc : Nat → Option Nat) :
    (malloc (sizeT * fas) = none →
      allocate_field_aos sizeT fas malloc = Except.error 1 ∧ (1 : Nat) ≠ 0)
    ∧ (∀ p, malloc (sizeT * fas) = some p →
      allocate_field_aos sizeT fas malloc = Except.ok p)
    ∧ (malloc (sizeT / sizeR * sizeR * fas) = none →
      allocate_field_soa sizeT sizeR fas malloc = Except.error 1 ∧
        (1 : Nat) ≠ 0)
    ∧ (∀ p, malloc (sizeT / sizeR * sizeR * fas) = some p →
      allocate_field_soa sizeT sizeR fas malloc = Except.ok p) := by
  refine ⟨fun h => ⟨?_, by decide⟩, fun p h => ?_, fun h => ⟨?_, by decide⟩,
    fun p h => ?_⟩ <;>
    simp [allocate_field_aos, allocate_field_soa, h]

/-- Concrete instance of C8: allocation failure exits with code 1; successful
allocation returns the address. -/
theorem C8_witness :
    allocate_field_aos 4 10 (fun _ => none) = Except.error 1
    ∧ allocate_field_aos 4 10 (fun _ => some 100) = Except.ok 100
    ∧ allocate_field_soa 6 4 10 (fun _ => none) = Except.error 1 :=
  ⟨((C8_allocate_fatal 4 4 10 (fun _ => none)).1 rfl).1,
   (C8_allocate_fatal 4 4 10 (fun _ => some 100)).2.1 100 rfl,
   ((C8_allocate_fatal 6 4 10 (fun _ => none)).2.2.1 rfl).1⟩

/-- Claim C10, counterexample.  The claim asserts that the structure-of-arrays
`assert(i < field_alloc_size)` precondition puts every scalar access
`e*field_alloc_size + i` strictly inside the buffer.  The index is a signed
`int`: at `i = -1` with `field_alloc_size = 4` the assertion passes, yet the
component access at offset `0*4 + (-1) = -1` lies outside the buffer. -/
theorem C10_counterexample :
    soa_assert 4 (-1) = true
    ∧ ¬ (∀ off ∈ soa_offsets 4 4 4 (-1),
          0 ≤ off ∧ off < ((4 / 4 * 4 : Nat) : Int)) := by
  decide

/-- Claim C10 (amended): the structure-of-arrays `get`/`set` assert exactly
`i < field_alloc_size` before touching the buffer, and under the stronger
precondition `0 ≤ i < field_alloc_size` every scalar access
`e*field_alloc_size + i` (for `e < sizeof(T)/sizeof(real_t)`) lies strictly
inside the `sizeof(T)/sizeof(real_t) * field_alloc_size` scalar slots reserved
by `allocate_field`; the array-of-structures `get` performs no bounds check at
all — it never fails, whatever the index. -/
theorem C10_bounds_amended (sizeT sizeR fas : Nat) (i : Int) :
    (soa_assert fas i = true ↔ i < (fas : Int))
    ∧ (0 ≤ i → i < (fas : Int) →
        ∀ off ∈ soa_offsets sizeT sizeR fas i,
          0 ≤ off ∧ off < ((sizeT / sizeR * fas : Nat) : Int))
    ∧ (∀ (fieldbuf : Int → List Nat),
        (aos_get_checked fieldbuf i).isSome = true) := by
  refine ⟨by simp [soa_assert], ?_, fun fieldbuf => rfl⟩
  intro h0 hlt off hoff
  unfold soa_offsets at hoff
  have hoff2 : ∃ e, e ∈ List.range (sizeT / sizeR) ∧
      ((e : Int) * (fas : Int) + i) = off := List.mem_map.mp hoff
  obtain ⟨e, he, hoffeq⟩ := hoff2
  have he' : e < sizeT / sizeR := List.mem_range.mp he
  subst hoffeq
  constructor
  · exact add_nonneg (mul_nonneg (Int.natCast_nonneg e) (Int.natCast_nonneg fas)) h0
  · have step1 : (e : Int) * (fas : Int) + i < ((e + 1 : Nat) : Int) * (fas : Int) := by
      push_cast
      nlinarith [hlt]
    have step2 : ((e + 1 : Nat) : Int) * (fas : Int) ≤
        ((sizeT / sizeR : Nat) : Int) * (fas : Int) := by
      apply mul_le_mul_of_nonneg_right
      · exact_mod_cast Nat.succ_le_of_lt he'
      · exact Int.natCast_nonneg fas
    have : ((sizeT / sizeR : Nat) : Int) * (fas : Int) =
        ((sizeT / sizeR * fas : Nat) : Int) := by push_cast; ring
    omega

/-- Concrete instance of the amended C10: index 2 of a 4-element allocation
with two scalar components accesses only in-bounds slots. -/
theorem C10_witness :
    ∀ off ∈ soa_offsets 8 4 4 2, 0 ≤ off ∧ off < ((8 / 4 * 4 : Nat) : Int) :=
  (C10_bounds_amended 8 4 4 2).2.1 (by decide) (by decide)

/-- Claim C2: for a field computed deterministically from global coordinates,
the logical value at a fixed global coordinate is the same under any two
partitionings, and serializing under one partitioning in canonical
global-coordinate order then re-loading under another reproduces the
identical logical value at every global coordinate. -/
theorem C2_partition_invariance (α : Type) [Inhabited α] (V : Nat)
    (pt1 pt2 : Partitioning V) (f : Nat → α) (g : Nat) (hg : g < V) :
    logicalValue V pt1 (distributedField V pt1 f) g = f g
    ∧ logicalValue V pt2 (distributedField V pt2 f) g = f g
    ∧ logicalValue V pt2 (loadField V pt2
        (serializeField V pt1 (distributedField V pt1 f))) g = f g := by
  refine ⟨?_, ?_, ?_⟩
  · show f (pt1.globalIndex (pt1.owner g)) = f g
    rw [pt1.global_owner g hg]
  · show f (pt2.globalIndex (pt2.owner g)) = f g
    rw [pt2.global_owner g hg]
  · show (serializeField V pt1 (distributedField V pt1 f)).getD
      (pt2.globalIndex (pt2.owner g)) default = f g
    rw [pt2.global_owner g hg, serializeField, getD_map_range hg default]
    show f (pt1.globalIndex (pt1.owner g)) = f g
    rw [pt1.global_owner g hg]

/-- Concrete instance of C2: a coordinate-determined field on a 4-site
lattice, serialized under the single-partition decomposition and re-loaded
under the two-partition decomposition, reads the same value at site 3. -/
theorem C2_witness :
    logicalValue 4 ptSplit (loadField 4 ptSplit (serializeField 4 ptSingle
      (distributedField 4 ptSingle (fun g => g * 10)))) 3 = 3 * 10 :=
  (C2_partition_invariance Nat 4 ptSingle ptSplit (fun g => g * 10) 3
    (by decide)).2.2

end HILA
